import Mathlib

/-!
# Verification of the BeFrames Flamenco job types

Shallow embedding of the two job-type compilers of this repository
(`BeFrames_BlenderPath.js` and the root-based variant) and proofs of the
specified properties: output-path template shape, placeholder resolution,
frame chunking, task authoring, validation order and atomicity, and
determinism of compilation.

Strings of the JavaScript source are embedded as `List Char`. Host and
Flamenco builtins that the source calls but does not define
(`frameChunker`, `frameCount`, `formatTimestampLocal`, the `path` module,
`last_n_dir_parts`) are modelled from the spec; their doc comments say so.
-/

/-- Path separator used when embedding Python `Path` joining and the node
`path` module (POSIX form). -/
def sep' : Char := '/'

/-- Split a character list on a separator character. Always returns at
least one (possibly empty) segment; a faithful embedding of splitting a
string on a single-character separator. -/
def splitSep (sep : Char) : List Char → List (List Char)
  | [] => [[]]
  | c :: rest =>
    if c = sep then [] :: splitSep sep rest
    else (c :: (splitSep sep rest).headI) :: (splitSep sep rest).tail

/-- Join segments with a separator character (embeds `'/'.join` /
Python `Path(...)` rendering of already-split segments). -/
def joinSegs (sep : Char) : List (List Char) → List Char
  | [] => []
  | [p] => p
  | p :: q :: rest => p ++ sep :: joinSegs sep (q :: rest)

/-- Modelled from the spec: node's `path.dirname`, "everything but the
final filename segment" of the path. -/
def dirname (p : List Char) : List Char :=
  joinSegs sep' ((splitSep sep' p).dropLast)

/-- Modelled from the spec: node's `path.basename`, the final filename
segment of the path. -/
def basenameOf (p : List Char) : List Char :=
  ((splitSep sep' p).getLast?).getD []

/-- Modelled from the spec: node's `path.join` on two components. -/
def pathJoin (a b : List Char) : List Char := a ++ sep' :: b

/-- Decimal digit character for `d < 10` (render helper for numbers). -/
def digitChar' (d : Nat) : Char :=
  if d = 0 then '0' else if d = 1 then '1' else if d = 2 then '2'
  else if d = 3 then '3' else if d = 4 then '4' else if d = 5 then '5'
  else if d = 6 then '6' else if d = 7 then '7' else if d = 8 then '8'
  else '9'

/-- Fuel-driven helper for decimal rendering; the fuel only bounds the
recursion depth and never runs out when it starts at the number itself. -/
def natCharsFuel : Nat → Nat → List Char
  | 0, n => [digitChar' n]
  | fuel + 1, n =>
    if n < 10 then [digitChar' n]
    else natCharsFuel fuel (n / 10) ++ [digitChar' (n % 10)]

/-- Decimal rendering of a natural number as a character list (embeds the
host's number-to-string conversion used when frame ranges are rendered). -/
def natChars (n : Nat) : List Char := natCharsFuel n n

/-- Numeric value of one digit character. -/
def digitVal (c : Char) : Nat := c.toNat - 48

/-- Parse a character list as a decimal natural number: at least one
character and every character a digit, otherwise `none`. -/
def parseNat (s : List Char) : Option Nat :=
  if s ≠ [] ∧ s.all Char.isDigit then
    some (s.foldl (fun acc c => 10 * acc + digitVal c) 0)
  else none

/-- Zero-padded two-digit rendering. -/
def pad2 (n : Nat) : List Char :=
  if n < 10 then '0' :: natChars n else natChars n

/-- Modelled from the spec: `formatTimestampLocal`, the Flamenco builtin
that formats the job-creation time as a locale-formatted local timestamp
string. Calendar details are abstracted (the day index stands for the
date part); what matters for the claims is that it is a pure function of
`job.created` and contains only digits, `'_'` and `'-'`. -/
def formatTimestampLocal (created : Nat) : List Char :=
  natChars (created / 86400) ++ '_' ::
  (pad2 (created % 86400 / 3600) ++ '-' ::
   (pad2 (created % 3600 / 60) ++ '-' :: pad2 (created % 60)))

/-- Trim whitespace from both ends of a character list (embeds
`String.prototype.trim`). -/
def trimStr (s : List Char) : List Char :=
  ((s.dropWhile (·.isWhitespace)).reverse.dropWhile (·.isWhitespace)).reverse

/-- A string is blank when it is empty or trims to empty; embeds the
root-based source's test `!root || root.trim() === ""`. -/
def isBlank (s : List Char) : Bool := s.all (·.isWhitespace)

/-- Insert a value into a strictly-sorted list, keeping it
strictly sorted (dropping a duplicate). -/
def insertSorted (x : Nat) : List Nat → List Nat
  | [] => [x]
  | a :: rest =>
    if x < a then x :: a :: rest
    else if x = a then a :: rest
    else a :: insertSorted x rest

/-- Sort a list of frame numbers ascending and drop duplicates: the
"ordered, deduplicated set" of the spec's frame parser. -/
def sortDedup (l : List Nat) : List Nat := l.foldr insertSorted []

/-- Parse one comma-separated token of a frame-range expression after
trimming: either a single number `"47"` or an inclusive range `"5-10"`.
Modelled from the spec: part of the Flamenco builtin `frameChunker`'s
parser ("supports single numbers and inclusive ranges"); a range with
start above end is malformed. -/
def parseFrameTok (t : List Char) : Option (List Nat) :=
  match splitSep '-' t with
  | [a] => (parseNat a).map (fun n => [n])
  | [a, b] =>
    match parseNat a, parseNat b with
    | some x, some y => if x ≤ y then some (List.range' x (y + 1 - x)) else none
    | _, _ => none
  | _ => none

/-- Parse a list of comma-separated tokens, trimming each; all must
parse or the whole expression is malformed. -/
def parseToks : List (List Char) → Option (List (List Nat))
  | [] => some []
  | t :: rest =>
    match parseFrameTok (trimStr t), parseToks rest with
    | some f, some fs => some (f :: fs)
    | _, _ => none

/-- Parse a full frame-range expression ("3, 5-10, 47-327") into the
ordered, deduplicated list of frame numbers. Modelled from the spec:
the parsing half of the Flamenco builtin `frameChunker`; `none` embeds
the MalformedFrameRange failure. -/
def parseFrameSet (s : List Char) : Option (List Nat) :=
  (parseToks (splitSep ',' s)).map (fun ls => sortDedup ls.flatten)

/-- Take the run of consecutive successors of `a` at the front of the
list: returns the end of the run and the remaining elements. -/
def takeRun (a : Nat) : List Nat → Nat × List Nat
  | [] => (a, [])
  | b :: rest => if b = a + 1 then takeRun b rest else (a, b :: rest)

/-- Fuel-driven helper for run serialization; the fuel bounds the number
of emitted runs and never runs out when it starts at the list length. -/
def serializeChainFuel : Nat → Nat → List Nat → List Char
  | 0, a, l =>
    (match takeRun a l with
     | (e, _) => if e = a then natChars a else natChars a ++ '-' :: natChars e)
  | fuel + 1, a, l =>
    match takeRun a l with
    | (e, rest) =>
      (if e = a then natChars a else natChars a ++ '-' :: natChars e) ++
      match rest with
      | [] => []
      | b :: rest' => ',' :: serializeChainFuel fuel b rest'

/-- Serialize a nonempty strictly-ascending frame list (first element
`a`, remainder `l`) as a compact range expression: maximal contiguous
runs become `"start-end"` (or a single number), joined by `','`.
Modelled from the spec: the re-serialization half of `frameChunker`. -/
def serializeChain (a : Nat) (l : List Nat) : List Char :=
  serializeChainFuel l.length a l

/-- Serialize a strictly-ascending frame list as a compact range
expression (empty list gives the empty string). -/
def serializeFrames : List Nat → List Char
  | [] => []
  | a :: rest => serializeChain a rest

/-- Fuel-driven helper for grouping; the fuel bounds the number of
groups and never runs out when it starts at the list length. -/
def chunksOf1Fuel : Nat → Nat → List Nat → List (List Nat)
  | _, _, [] => []
  | 0, m, a :: rest => [a :: rest.take m]
  | fuel + 1, m, a :: rest =>
    (a :: rest.take m) :: chunksOf1Fuel fuel m (rest.drop m)

/-- Split a list into consecutive groups of `m + 1` elements (the last
group may be shorter). -/
def chunksOf1 (m : Nat) (l : List Nat) : List (List Nat) :=
  chunksOf1Fuel l.length m l

/-- Modelled from the spec: the Flamenco builtin `frameChunker`. Rejects
a non-positive chunk size (InvalidChunkSize), parses the frame-range
expression (MalformedFrameRange on failure), partitions the ordered
frame set into consecutive groups of at most `chunkSize` frames, and
re-serializes each group as a compact range token. -/
def frameChunker (framesExpr : List Char) (chunkSize : Int) :
    Except (List Char) (List (List Char)) :=
  if chunkSize ≤ 0 then .error ("invalid chunk size".toList)
  else
    match parseFrameSet framesExpr with
    | none => .error ("malformed frame range".toList)
    | some l => .ok ((chunksOf1 (chunkSize.toNat - 1) l).map serializeFrames)

/-- Modelled from the spec: the Flamenco builtin `frameCount`, the
number of frames denoted by a range token. -/
def frameCount (chunk : List Char) : Nat :=
  match parseFrameSet chunk with
  | some l => l.length
  | none => 0

/-- Job settings, as read by the compile functions. The fields mirror
the `settings` keys of the two job-type definitions; `render_output_root`
only exists in the root-based variant and is ignored by the other. -/
structure Settings where
  frames : List Char
  chunk_size : Int
  force_overwrite : Bool
  stable_directory : Bool
  render_output_path : List Char
  render_output_root : List Char
  blendfile : List Char
  scene : List Char
  format : List Char
deriving DecidableEq, Repr

/-- A submitted job: its settings, its creation time, and fields the
compile functions do not read (name, priority). -/
structure Job where
  settings : Settings
  created : Nat
  name : List Char
  priority : Nat
deriving DecidableEq, Repr

/-- One authored command (`author.Command` in the source): command name,
runtime-resolved executable placeholders, blend file, the ordered
argument list, and the attached frame count. -/
structure Command where
  cmdName : List Char
  exe : List Char
  exeArgs : List Char
  blendfile : List Char
  args : List (List Char)
  count : Nat
deriving DecidableEq, Repr

/-- One authored task (`author.Task` in the source): name, task type and
its commands. -/
structure RenderTask where
  taskName : List Char
  taskType : List Char
  commands : List Command
deriving DecidableEq, Repr

/-- The literal `"{timestamp}"` path segment. -/
def tsSegment : List Char := "{timestamp}".toList

/-- The key of the one recognized placeholder. -/
def tsKey : List Char := "timestamp".toList

/-- The literal `"_######"` frame-padding token appended to the filename. -/
def hashesTok : List Char := "_######".toList

/-- Embeds the `eval` expression of the `render_output_path` setting of
`BeFrames_BlenderPath.js` (lines 62-66): from the directory and base name
of Blender's configured output path, build
`parent/name_######` when `stable_directory` is set and
`parent/{timestamp}/name_######` otherwise. -/
def BlenderPath.render_output_path (filedir filename : List Char)
    (stable : Bool) : List Char :=
  if stable then joinSegs sep' [filedir, filename ++ hashesTok]
  else joinSegs sep' [filedir, tsSegment, filename ++ hashesTok]

/-- Modelled from the spec: the Flamenco helper `last_n_dir_parts`
applied to the directory of the blend file, "the last N path components
of the directory containing the source scene file"; `n = 0` gives no
components. The directory is given as its segment list. -/
def lastNDirParts (n : Nat) (dirSegs : List (List Char)) : List (List Char) :=
  dirSegs.drop (dirSegs.length - n)

/-- Embeds the `eval` expression of the `render_output_path` setting of
the root-based variant (lines 86-90): `root/<last n blend-dir parts>/
jobname[/{timestamp}]/name_######`. `root` stands for the already
absolute `abspath(settings.render_output_root)`. -/
def RootBased.render_output_path (root : List Char)
    (blendDirSegs : List (List Char)) (n : Nat)
    (jobname filename : List Char) (stable : Bool) : List Char :=
  joinSegs sep'
    ([root] ++ lastNDirParts n blendDirSegs ++ [jobname] ++
     (if stable then [] else [tsSegment]) ++ [filename ++ hashesTok])

/-- Embeds the regex replacement of `renderOutputPath` in both sources:
`p.replace(/\x7b([^\x7d]+)\x7d/g, (match, key) => key === "timestamp" ?
formatTimestampLocal(job.created) : match)`. Scans left to right; a
brace-delimited group with a nonempty key is replaced by `ts` when the
key is `timestamp` and kept verbatim otherwise; everything else is
copied. -/
def resolveTemplateFuel (ts : List Char) : Nat → List Char → List Char
  | _, [] => []
  | 0, c :: rest => c :: rest
  | fuel + 1, c :: rest =>
    if c = '{' then
      let key := rest.takeWhile (fun d => d ≠ '}')
      let rest1 := rest.dropWhile (fun d => d ≠ '}')
      if key = [] then c :: resolveTemplateFuel ts fuel rest
      else if rest1 = [] then c :: resolveTemplateFuel ts fuel rest
      else
        (if key = tsKey then ts else '{' :: key ++ ['}']) ++
        resolveTemplateFuel ts fuel rest1.tail
    else c :: resolveTemplateFuel ts fuel rest

/-- The template resolver: fuel-driven scan started with enough fuel for
the whole string. -/
def resolveTemplate (ts s : List Char) : List Char :=
  resolveTemplateFuel ts s.length s

/-- Embeds `renderOutputPath(job)` of both sources: resolve the job's
output-path template with the formatted job-creation timestamp. -/
def renderOutputPath (job : Job) : List Char :=
  resolveTemplate (formatTimestampLocal job.created) job.settings.render_output_path

/-- The Python expression injected by the force-overwrite option. -/
def overwriteExpr : List Char :=
  ("import bpy\nfor s in bpy.data.scenes:\n    s.render.use_overwrite = True\n    s.render.use_placeholder = False\n").toList

/-- The scene-selection arguments: `["--scene", scene]` exactly when a
scene name is configured (a nonempty string is truthy in the source's
`settings.scene ? ... : []`). -/
def baseArgs (settings : Settings) : List (List Char) :=
  if settings.scene ≠ [] then [("--scene").toList, settings.scene] else []

/-- The overwrite-enforcement arguments, present exactly when
`force_overwrite` is set. -/
def overwriteArgs (settings : Settings) : List (List Char) :=
  if settings.force_overwrite
  then [("--python-expr").toList, overwriteExpr] else []

/-- One authored task of the loop body of `authorRenderTasks`: name
`render-<chunk>`, one `blender-render` command with the fixed argument
order, and the chunk's frame count. -/
def authorOneTask (settings : Settings) (renderDir renderOutput chunk : List Char) :
    RenderTask :=
  { taskName := ("render-").toList ++ chunk
    taskType := ("blender").toList
    commands := [{
      cmdName := ("blender-render").toList
      exe := ("{blender}").toList
      exeArgs := ("{blenderArgs}").toList
      blendfile := settings.blendfile
      args := baseArgs settings ++ overwriteArgs settings ++
        [("--render-output").toList,
         pathJoin renderDir (basenameOf renderOutput),
         ("--render-format").toList, settings.format,
         ("--render-frame").toList,
         chunk.flatMap (fun c => if c = '-' then ['.', '.'] else [c])]
      count := frameCount chunk }] }

/-- Embeds `authorRenderTasks(settings, renderDir, renderOutput)`,
identical in both sources: chunk the frame range, then author one task
per chunk, each carrying one `blender-render` command whose argument
list is the scene selection (when a scene is configured), the overwrite
instruction (when `force_overwrite` is set), then the render output,
format and frame-range arguments. -/
def authorRenderTasks (settings : Settings) (renderDir renderOutput : List Char) :
    Except (List Char) (List RenderTask) :=
  match frameChunker settings.frames settings.chunk_size with
  | .error e => .error e
  | .ok chunks =>
    .ok (chunks.map (authorOneTask settings renderDir renderOutput))

/-- The error thrown for a disallowed video format. -/
def videoFormatsMsg : List Char :=
  ("Video formats are not supported by this job type (image sequences only).").toList

/-- The error thrown by the root-based variant for a blank output root. -/
def rootMissingMsg : List Char :=
  ("Render Output Root is required for the RootBased job type.").toList

/-- The fixed disallowed set of video formats, shared by both sources. -/
def videoFormats : List (List Char) :=
  [("FFMPEG").toList, ("AVI_RAW").toList, ("AVI_JPEG").toList]

/-- Embeds `compileJob(job)` of `BeFrames_BlenderPath.js`: reject video
formats, resolve the output path once, author the tasks, and only then
add every task to the job. The returned pair is the resolved output path
(written back to `settings.render_output_path` in the source) and the
complete task list. -/
def BlenderPath.compileJob (job : Job) :
    Except (List Char) (List Char × List RenderTask) :=
  if videoFormats.contains job.settings.format then .error videoFormatsMsg
  else
    match authorRenderTasks job.settings (dirname (renderOutputPath job))
        (renderOutputPath job) with
    | .error e => .error e
    | .ok tasks => .ok (renderOutputPath job, tasks)

/-- Embeds `compileJob(job)` of the root-based variant: reject video
formats, then reject an absent or blank `render_output_root`, then as in
the other variant. -/
def RootBased.compileJob (job : Job) :
    Except (List Char) (List Char × List RenderTask) :=
  if videoFormats.contains job.settings.format then .error videoFormatsMsg
  else if isBlank job.settings.render_output_root then .error rootMissingMsg
  else
    match authorRenderTasks job.settings (dirname (renderOutputPath job))
        (renderOutputPath job) with
    | .error e => .error e
    | .ok tasks => .ok (renderOutputPath job, tasks)

/-- The tasks actually added to the job by `job.addTask` during a
BlenderPath compile: the source's add loop runs only after every
fallible step, so a failed compile adds nothing. -/
def BlenderPath.addedTasks (job : Job) : List RenderTask :=
  match BlenderPath.compileJob job with
  | .ok r => r.2
  | .error _ => []

/-- The tasks actually added to the job during a root-based compile. -/
def RootBased.addedTasks (job : Job) : List RenderTask :=
  match RootBased.compileJob job with
  | .ok r => r.2
  | .error _ => []

deriving instance DecidableEq for Except

/-- Sample settings for a scene-relative job used as concrete witnesses:
frames 1-5 in chunks of 2, non-stable directory, forced overwrite. -/
def settingsA : Settings :=
  { frames := ("1-5").toList
    chunk_size := 2
    force_overwrite := true
    stable_directory := false
    render_output_path :=
      BlenderPath.render_output_path ("/proj/render").toList ("Anim03").toList false
    render_output_root := ("/farm").toList
    blendfile := ("shot.blend").toList
    scene := ("Scene").toList
    format := ("PNG").toList }

/-- Sample scene-relative job. -/
def jobA : Job :=
  { settings := settingsA
    created := 90123
    name := ("MyJob").toList
    priority := 50 }

/-- Sample settings for a root-relative job used as concrete witnesses. -/
def settingsB : Settings :=
  { settingsA with
    render_output_path :=
      RootBased.render_output_path ("/farm").toList
        [("projects").toList, ("shotA").toList] 2 ("MyJob").toList
        ("Anim03").toList false }

/-- Sample root-relative job. -/
def jobB : Job :=
  { settings := settingsB
    created := 90123
    name := ("MyJob").toList
    priority := 50 }

/-- Sample job with a disallowed video format. -/
def jobC : Job :=
  { jobA with settings := { settingsA with format := ("FFMPEG").toList } }

/-- Sample root-relative job whose output root is blank. -/
def jobD : Job :=
  { jobB with settings := { settingsB with render_output_root := ("   ").toList } }

/-- Sample job with a non-positive chunk size. -/
def jobE : Job :=
  { jobA with settings := { settingsA with chunk_size := 0 } }

/-- A job equal to `jobA` in settings and creation time but different in
name and priority. -/
def jobF : Job :=
  { jobA with name := ("other").toList, priority := 7 }

/-- The shape claimed for an output-path template, stated on its segment
list: it ends in the `<prefix>_######` filename segment, a stable job has
no `{timestamp}` segment, and a non-stable job has the `{timestamp}`
segment immediately before the filename segment and nowhere else. -/
def TemplateShape (segs : List (List Char)) (filename : List Char)
    (stable : Bool) : Prop :=
  segs.getLast? = some (filename ++ hashesTok) ∧
  (stable = true → tsSegment ∉ segs) ∧
  (stable = false →
    ∃ pre, segs = pre ++ [tsSegment, filename ++ hashesTok] ∧ tsSegment ∉ pre)

/-- A tokenized path template: literal characters interleaved with
`\x7bkey\x7d` placeholder groups. -/
inductive PathTok where
  | lit (c : Char)
  | ph (key : List Char)
deriving DecidableEq, Repr

/-- Render a token list back to the template string it denotes. -/
def renderToks : List PathTok → List Char
  | [] => []
  | .lit c :: rest => c :: renderToks rest
  | .ph k :: rest => '{' :: (k ++ '}' :: renderToks rest)

/-- What resolution is claimed to do to a single token: the recognized
`timestamp` placeholder becomes the timestamp value, any other
placeholder stays verbatim, literals are copied. -/
def substTok (ts : List Char) : PathTok → List Char
  | .lit c => [c]
  | .ph k => if k = tsKey then ts else '{' :: k ++ ['}']

/-- Well-formedness of one template token: a literal is not an opening
brace (so the tokenization is unambiguous), a placeholder key is
nonempty and contains no closing brace. -/
def WfTok : PathTok → Prop
  | .lit c => c ≠ '{'
  | .ph k => k ≠ [] ∧ ∀ d ∈ k, d ≠ '}'

instance : DecidablePred WfTok := by
  intro t
  cases t <;> simp only [WfTok] <;> infer_instance

/-- The ten decimal digit characters. -/
def digitsList : List Char := ['0', '1', '2', '3', '4', '5', '6', '7', '8', '9']

/-- The frame numbers denoted by a chunk's range token. -/
def chunkFrames (c : List Char) : List Nat := (parseFrameSet c).getD []

/-- Shared part of the claim on compiled output paths: whenever a
compile function succeeds, the returned path is the template resolved
with the job-creation timestamp, and every authored task carries one
command whose `--render-output` argument is the one value rebuilt from
that single resolved path. -/
def CompileSharesOutput
    (compile : Job → Except (List Char) (List Char × List RenderTask)) : Prop :=
  ∀ job out tasks, compile job = .ok (out, tasks) →
    out = resolveTemplate (formatTimestampLocal job.created)
            job.settings.render_output_path ∧
    ∀ t ∈ tasks, ∃ c pre tok, t.commands = [c] ∧
      c.args = pre ++
        [("--render-output").toList, pathJoin (dirname out) (basenameOf out),
         ("--render-format").toList, job.settings.format,
         ("--render-frame").toList, tok]


theorem length_dropWhile_le' (p : Char → Bool) (l : List Char) :
    (l.dropWhile p).length ≤ l.length := by
  induction l with
  | nil => simp
  | cons c rest ih =>
    rw [List.dropWhile_cons]
    split
    · exact le_trans ih (by simp)
    · simp

theorem takeRun_rest_length (a : Nat) (l : List Nat) :
    (takeRun a l).2.length ≤ l.length := by
  induction l generalizing a with
  | nil => simp [takeRun]
  | cons b rest ih =>
    simp only [takeRun]
    split
    · exact le_trans (ih b) (by simp)
    · simp

theorem natCharsFuel_congr (f1 : Nat) : ∀ (n f2 : Nat), n ≤ f1 → n ≤ f2 →
    natCharsFuel f1 n = natCharsFuel f2 n := by
  induction f1 with
  | zero =>
    intro n f2 h1 h2
    have : n = 0 := by omega
    subst this
    cases f2 <;> simp [natCharsFuel]
  | succ f ih =>
    intro n f2 h1 h2
    cases f2 with
    | zero =>
      have : n = 0 := by omega
      subst this
      simp [natCharsFuel]
    | succ g =>
      simp only [natCharsFuel]
      by_cases hn : n < 10
      · simp [hn]
      · simp only [if_neg hn]
        have := ih (n / 10) g (by omega) (by omega)
        rw [this]

theorem natChars_eq (n : Nat) :
    natChars n = if n < 10 then [digitChar' n]
      else natChars (n / 10) ++ [digitChar' (n % 10)] := by
  unfold natChars
  cases n with
  | zero => simp [natCharsFuel]
  | succ m =>
    simp only [natCharsFuel]
    by_cases h : m + 1 < 10
    · simp [h]
    · simp only [if_neg h]
      rw [natCharsFuel_congr m ((m + 1) / 10) ((m + 1) / 10) (by omega) (by omega)]

theorem chunksOf1Fuel_congr (f1 : Nat) : ∀ (m : Nat) (l : List Nat) (f2 : Nat),
    l.length ≤ f1 + 1 → l.length ≤ f2 + 1 →
    chunksOf1Fuel f1 m l = chunksOf1Fuel f2 m l := by
  induction f1 with
  | zero =>
    intro m l f2 h1 h2
    match l with
    | [] => cases f2 <;> rfl
    | [a] =>
      cases f2 with
      | zero => rfl
      | succ g => simp [chunksOf1Fuel]
    | a :: b :: r => simp at h1
  | succ f ih =>
    intro m l f2 h1 h2
    match l with
    | [] => cases f2 <;> rfl
    | a :: rest =>
      cases f2 with
      | zero =>
        have : rest = [] := by
          simp only [List.length_cons] at h2
          exact List.length_eq_zero.1 (by omega)
        subst this
        simp [chunksOf1Fuel]
      | succ g =>
        simp only [chunksOf1Fuel]
        rw [ih m (rest.drop m) g
          (by simp only [List.length_drop]; simp at h1; omega)
          (by simp only [List.length_drop]; simp at h2; omega)]

theorem chunksOf1_cons (m a : Nat) (rest : List Nat) :
    chunksOf1 m (a :: rest) =
      (a :: rest.take m) :: chunksOf1 m (rest.drop m) := by
  unfold chunksOf1
  simp only [List.length_cons, chunksOf1Fuel]
  rw [chunksOf1Fuel_congr rest.length m (rest.drop m) (rest.drop m).length
    (by simp only [List.length_drop]; omega) (by omega)]

theorem serializeChainFuel_congr (f1 : Nat) : ∀ (a : Nat) (l : List Nat) (f2 : Nat),
    l.length ≤ f1 → l.length ≤ f2 →
    serializeChainFuel f1 a l = serializeChainFuel f2 a l := by
  induction f1 with
  | zero =>
    intro a l f2 h1 h2
    have : l = [] := List.length_eq_zero.1 (by omega)
    subst this
    cases f2 with
    | zero => rfl
    | succ g => simp [serializeChainFuel, takeRun]
  | succ f ih =>
    intro a l f2 h1 h2
    cases f2 with
    | zero =>
      have : l = [] := List.length_eq_zero.1 (by omega)
      subst this
      simp [serializeChainFuel, takeRun]
    | succ g =>
      simp only [serializeChainFuel]
      rcases hr : takeRun a l with ⟨e, rest⟩
      have hrl : rest.length ≤ l.length := by
        have := takeRun_rest_length a l
        rw [hr] at this
        exact this
      cases rest with
      | nil => rfl
      | cons b rest' =>
        simp only []
        rw [ih b rest' g (by simp at hrl; omega) (by simp at hrl; omega)]

theorem serializeChain_eq_nil (a e : Nat) (l : List Nat)
    (hr : takeRun a l = (e, [])) :
    serializeChain a l =
      (if e = a then natChars a else natChars a ++ '-' :: natChars e) := by
  unfold serializeChain
  cases l with
  | nil => simp only [serializeChainFuel, hr]
  | cons x xs =>
    simp only [List.length_cons, serializeChainFuel, hr]
    simp

theorem serializeChain_eq_cons (a e b : Nat) (l rest' : List Nat)
    (hr : takeRun a l = (e, b :: rest')) :
    serializeChain a l =
      (if e = a then natChars a else natChars a ++ '-' :: natChars e) ++
        ',' :: serializeChain b rest' := by
  unfold serializeChain
  cases l with
  | nil => simp [takeRun] at hr
  | cons x xs =>
    simp only [List.length_cons, serializeChainFuel, hr]
    have hrl : (b :: rest').length ≤ (x :: xs).length := by
      have := takeRun_rest_length a (x :: xs)
      rw [hr] at this
      exact this
    simp only [List.length_cons] at hrl
    rw [serializeChainFuel_congr xs.length b rest' rest'.length (by omega) (by omega)]

theorem resolveTemplateFuel_congr (f1 : Nat) : ∀ (ts s : List Char) (f2 : Nat),
    s.length ≤ f1 + 1 → s.length ≤ f2 + 1 →
    resolveTemplateFuel ts f1 s = resolveTemplateFuel ts f2 s := by
  induction f1 with
  | zero =>
    intro ts s f2 h1 h2
    match s with
    | [] => cases f2 <;> rfl
    | [c] =>
      cases f2 with
      | zero => rfl
      | succ g =>
        simp only [resolveTemplateFuel]
        by_cases hc : c = '{'
        · simp [hc, resolveTemplateFuel]
        · simp [hc, resolveTemplateFuel]
    | c :: d :: r => simp at h1
  | succ f ih =>
    intro ts s f2 h1 h2
    match s with
    | [] => cases f2 <;> rfl
    | c :: rest =>
      cases f2 with
      | zero =>
        have : rest = [] := by
          simp only [List.length_cons] at h2
          exact List.length_eq_zero.1 (by omega)
        subst this
        simp only [resolveTemplateFuel]
        by_cases hc : c = '{'
        · simp [hc, resolveTemplateFuel]
        · simp [hc, resolveTemplateFuel]
      | succ g =>
        have hrest1 : rest.length ≤ f + 1 := by simp at h1; omega
        have hrest2 : rest.length ≤ g + 1 := by simp at h2; omega
        have htail1 : (rest.dropWhile (fun d => decide (d ≠ '}'))).tail.length ≤ f + 1 := by
          have := length_dropWhile_le' (fun d => decide (d ≠ '}')) rest
          simp only [List.length_tail]
          omega
        have htail2 : (rest.dropWhile (fun d => decide (d ≠ '}'))).tail.length ≤ g + 1 := by
          have := length_dropWhile_le' (fun d => decide (d ≠ '}')) rest
          simp only [List.length_tail]
          omega
        simp only [resolveTemplateFuel]
        by_cases hc : c = '{'
        · simp only [if_pos hc]
          by_cases hk : rest.takeWhile (fun d => decide (d ≠ '}')) = []
          · rw [if_pos hk, if_pos hk, ih ts rest g hrest1 hrest2]
          · by_cases hd : rest.dropWhile (fun d => decide (d ≠ '}')) = []
            · rw [if_neg hk, if_neg hk, if_pos hd, if_pos hd,
                ih ts rest g hrest1 hrest2]
            · rw [if_neg hk, if_neg hk, if_neg hd, if_neg hd,
                ih ts (rest.dropWhile (fun d => decide (d ≠ '}'))).tail g htail1 htail2]
        · simp only [if_neg hc]
          rw [ih ts rest g hrest1 hrest2]

theorem splitSep_ne_nil (sep : Char) (s : List Char) : splitSep sep s ≠ [] := by
  cases s with
  | nil => simp [splitSep]
  | cons c rest => simp only [splitSep]; split <;> simp

theorem splitSep_append_sep (sep : Char) (a b : List Char) :
    splitSep sep (a ++ sep :: b) = splitSep sep a ++ splitSep sep b := by
  induction a with
  | nil => simp [splitSep]
  | cons c a' ih =>
    simp only [List.cons_append, splitSep, List.append_eq]
    rw [ih]
    by_cases hc : c = sep
    · simp [hc]
    · simp only [if_neg hc]
      obtain ⟨t, ts, h⟩ : ∃ t ts, splitSep sep a' = t :: ts := by
        rcases hh : splitSep sep a' with _ | ⟨t, ts⟩
        · exact absurd hh (splitSep_ne_nil sep a')
        · exact ⟨t, ts, rfl⟩
      rw [h]
      simp [List.headI]

theorem splitSep_sepFree (sep : Char) (s : List Char) (h : sep ∉ s) :
    splitSep sep s = [s] := by
  induction s with
  | nil => rfl
  | cons c rest ih =>
    have hc : ¬c = sep := by
      intro e
      subst e
      exact h (List.mem_cons_self c rest)
    rw [splitSep, if_neg hc, ih (fun m => h (List.mem_cons_of_mem c m))]
    simp [List.headI]

theorem splitSep_joinSegs (sep : Char) (parts : List (List Char))
    (hne : parts ≠ []) (hfree : ∀ p ∈ parts, sep ∉ p) :
    splitSep sep (joinSegs sep parts) = parts := by
  induction parts with
  | nil => exact absurd rfl hne
  | cons p rest ih =>
    cases rest with
    | nil =>
      simp only [joinSegs]
      exact splitSep_sepFree sep p (hfree p (List.mem_cons_self p []))
    | cons q rest' =>
      simp only [joinSegs]
      rw [splitSep_append_sep, splitSep_sepFree sep p (hfree p (by simp)),
        ih (by simp) (fun r hr => hfree r (List.mem_cons_of_mem p hr))]
      rfl

theorem joinSegs_cons (sep : Char) (p : List Char) (rest : List (List Char))
    (h : rest ≠ []) :
    joinSegs sep (p :: rest) = p ++ sep :: joinSegs sep rest := by
  cases rest with
  | nil => exact absurd rfl h
  | cons q rest' => rfl

theorem joinSegs_concat (sep : Char) (parts : List (List Char)) (x : List Char)
    (h : parts ≠ []) :
    joinSegs sep (parts ++ [x]) = joinSegs sep parts ++ sep :: x := by
  induction parts with
  | nil => exact absurd rfl h
  | cons p rest ih =>
    cases rest with
    | nil => rfl
    | cons q rest' =>
      rw [List.cons_append, joinSegs_cons sep p (q :: rest' ++ [x]) (by simp),
        joinSegs_cons sep p (q :: rest') (by simp), ih (by simp)]
      simp

theorem splitSep_joinSegs_cons (sep : Char) (root : List Char)
    (rest : List (List Char)) (hne : rest ≠ [])
    (hfree : ∀ p ∈ rest, sep ∉ p) :
    splitSep sep (joinSegs sep (root :: rest)) = splitSep sep root ++ rest := by
  rw [joinSegs_cons sep root rest hne, splitSep_append_sep,
    splitSep_joinSegs sep rest hne hfree]

theorem dirname_joinSegs (parts : List (List Char)) (x : List Char)
    (hfree : ∀ p ∈ parts, sep' ∉ p) (hx : sep' ∉ x) :
    dirname (joinSegs sep' (parts ++ [x])) = joinSegs sep' parts := by
  rw [dirname, splitSep_joinSegs sep' (parts ++ [x]) (by simp)
    (by intro p hp; rcases List.mem_append.1 hp with h | h
        · exact hfree p h
        · simp at h; subst h; exact hx)]
  rw [List.dropLast_concat]

theorem basename_joinSegs (parts : List (List Char)) (x : List Char)
    (hfree : ∀ p ∈ parts, sep' ∉ p) (hx : sep' ∉ x) :
    basenameOf (joinSegs sep' (parts ++ [x])) = x := by
  rw [basenameOf, splitSep_joinSegs sep' (parts ++ [x]) (by simp)
    (by intro p hp; rcases List.mem_append.1 hp with h | h
        · exact hfree p h
        · simp at h; subst h; exact hx)]
  rw [List.getLast?_concat]
  rfl

theorem sep_not_mem_hashes : sep' ∉ hashesTok := by decide

theorem sep_not_mem_tsSegment : sep' ∉ tsSegment := by decide

theorem filename_hashes_ne_tsSegment (filename : List Char) :
    filename ++ hashesTok ≠ tsSegment := by
  intro h
  have h1 : (filename ++ hashesTok).getLast? = some '#' := by
    rw [show hashesTok = ("_#####").toList ++ ['#'] from rfl, ← List.append_assoc,
      List.getLast?_concat]
  rw [h] at h1
  have h2 : tsSegment.getLast? = some '}' := by decide
  rw [h2] at h1
  simp at h1

theorem blenderPath_template_segs (filedir filename : List Char) (stable : Bool)
    (hfn : sep' ∉ filename) :
    splitSep sep' (BlenderPath.render_output_path filedir filename stable) =
      splitSep sep' filedir ++ (if stable then [] else [tsSegment]) ++
        [filename ++ hashesTok] := by
  have hfn' : sep' ∉ filename ++ hashesTok := by
    intro m
    rcases List.mem_append.1 m with h | h
    · exact hfn h
    · exact sep_not_mem_hashes h
  cases stable with
  | true =>
    simp only [BlenderPath.render_output_path, if_true]
    rw [splitSep_joinSegs_cons sep' filedir [filename ++ hashesTok] (by simp)
      (by intro p hp; simp at hp; subst hp; exact hfn')]
    simp
  | false =>
    simp only [BlenderPath.render_output_path, Bool.false_eq_true, if_false]
    rw [splitSep_joinSegs_cons sep' filedir [tsSegment, filename ++ hashesTok] (by simp)
      (by intro p hp
          simp at hp
          rcases hp with h | h <;> subst h
          · exact sep_not_mem_tsSegment
          · exact hfn')]
    simp

theorem rootBased_template_segs (root : List Char)
    (blendDirSegs : List (List Char)) (n : Nat)
    (jobname filename : List Char) (stable : Bool)
    (hsegs : ∀ p ∈ blendDirSegs, sep' ∉ p)
    (hjob : sep' ∉ jobname) (hfn : sep' ∉ filename) :
    splitSep sep' (RootBased.render_output_path root blendDirSegs n jobname filename stable) =
      splitSep sep' root ++ lastNDirParts n blendDirSegs ++ [jobname] ++
        (if stable then [] else [tsSegment]) ++ [filename ++ hashesTok] := by
  have hfn' : sep' ∉ filename ++ hashesTok := by
    intro m
    rcases List.mem_append.1 m with h | h
    · exact hfn h
    · exact sep_not_mem_hashes h
  rw [RootBased.render_output_path,
    show [root] ++ lastNDirParts n blendDirSegs ++ [jobname] ++
        (if stable then [] else [tsSegment]) ++ [filename ++ hashesTok] =
      root :: (lastNDirParts n blendDirSegs ++ [jobname] ++
        (if stable then [] else [tsSegment]) ++ [filename ++ hashesTok]) by simp,
    splitSep_joinSegs_cons sep' root _ (by simp)
      (by intro p hp
          simp only [List.mem_append] at hp
          rcases hp with ((h | h) | h) | h
          · exact hsegs p (List.drop_subset _ _ h) -- lastNDirParts is a drop
          · simp at h; subst h; exact hjob
          · rcases stable with _ | _
            · simp at h; subst h; exact sep_not_mem_tsSegment
            · simp at h
          · simp at h; subst h; exact hfn')]
  simp [lastNDirParts]

theorem templateShape_of_segs (base : List (List Char)) (filename : List Char)
    (stable : Bool) (hbase : tsSegment ∉ base) :
    TemplateShape (base ++ (if stable then [] else [tsSegment]) ++
      [filename ++ hashesTok]) filename stable := by
  refine ⟨?_, ?_, ?_⟩
  · rw [List.getLast?_concat]
  · intro hs
    subst hs
    simp only [if_true, List.append_nil]
    intro m
    rcases List.mem_append.1 m with h | h
    · exact hbase h
    · simp at h
      exact filename_hashes_ne_tsSegment filename h.symm
  · intro hs
    subst hs
    simp only [Bool.false_eq_true, if_false]
    exact ⟨base, by simp, hbase⟩

/-- C1: in both job variants the output-path template ends in the
`<prefix>_######` filename segment, and the stable-directory flag alone
decides the timestamp segment: a stable template has no `{timestamp}`
segment, a non-stable one has it exactly immediately before the filename
segment. Hypotheses: the filename, job name and blend-path components
are single path segments, and no input segment is itself the literal
`{timestamp}`. -/
theorem C1_output_template_shape
    (filedir filename root jobname : List Char)
    (blendDirSegs : List (List Char)) (n : Nat) (stable : Bool)
    (hfn : sep' ∉ filename) (hjob : sep' ∉ jobname)
    (hsegs : ∀ p ∈ blendDirSegs, sep' ∉ p)
    (hd : tsSegment ∉ splitSep sep' filedir)
    (hrt : tsSegment ∉ splitSep sep' root)
    (hjob2 : jobname ≠ tsSegment)
    (hsegs2 : ∀ p ∈ blendDirSegs, p ≠ tsSegment) :
    TemplateShape
      (splitSep sep' (BlenderPath.render_output_path filedir filename stable))
      filename stable ∧
    TemplateShape
      (splitSep sep' (RootBased.render_output_path root blendDirSegs n
        jobname filename stable))
      filename stable := by
  constructor
  · rw [blenderPath_template_segs filedir filename stable hfn]
    exact templateShape_of_segs _ filename stable hd
  · rw [rootBased_template_segs root blendDirSegs n jobname filename stable
      hsegs hjob hfn]
    apply templateShape_of_segs
    intro m
    rcases List.mem_append.1 m with h | h
    · rcases List.mem_append.1 h with h' | h'
      · exact hrt h'
      · exact hsegs2 tsSegment (List.drop_subset _ _ h') rfl
    · simp at h
      exact hjob2 h.symm

/-- Witness for C1 at the spec's own examples: scene output directory
`/proj/shot010/render` with prefix `Anim03`, and root `/farm` with two
inherited blend-path components and job `MyJob`, both non-stable. -/
theorem C1_output_template_shape_witness :
    TemplateShape
      (splitSep sep' (BlenderPath.render_output_path
        ("/proj/shot010/render").toList ("Anim03").toList false))
      (("Anim03").toList) false ∧
    TemplateShape
      (splitSep sep' (RootBased.render_output_path ("/farm").toList
        [("projects").toList, ("shotA").toList] 2 ("MyJob").toList
        ("Anim03").toList false))
      (("Anim03").toList) false :=
  C1_output_template_shape ("/proj/shot010/render").toList ("Anim03").toList
    ("/farm").toList ("MyJob").toList
    [("projects").toList, ("shotA").toList] 2 false
    (by decide) (by decide) (by decide) (by decide) (by decide) (by decide)
    (by decide)

theorem takeWhile_all_append (p : Char → Bool) (a b : List Char)
    (h : ∀ c ∈ a, p c = true) :
    (a ++ b).takeWhile p = a ++ b.takeWhile p := by
  induction a with
  | nil => simp
  | cons c a' ih =>
    rw [List.cons_append, List.takeWhile_cons, if_pos (h c (by simp)),
      ih (fun d hd => h d (List.mem_cons_of_mem c hd))]
    rfl

theorem dropWhile_all_append (p : Char → Bool) (a b : List Char)
    (h : ∀ c ∈ a, p c = true) :
    (a ++ b).dropWhile p = b.dropWhile p := by
  induction a with
  | nil => simp
  | cons c a' ih =>
    rw [List.cons_append, List.dropWhile_cons, if_pos (h c (by simp))]
    exact ih (fun d hd => h d (List.mem_cons_of_mem c hd))

theorem resolve_cons_not_brace (ts : List Char) (c : Char) (rest : List Char)
    (h : c ≠ '{') :
    resolveTemplate ts (c :: rest) = c :: resolveTemplate ts rest := by
  unfold resolveTemplate
  simp only [List.length_cons, resolveTemplateFuel, if_neg h]

theorem resolve_cons_group (ts key rest : List Char) (hne : key ≠ [])
    (hfree : ∀ d ∈ key, d ≠ '}') :
    resolveTemplate ts ('{' :: (key ++ '}' :: rest)) =
      (if key = tsKey then ts else '{' :: key ++ ['}']) ++
        resolveTemplate ts rest := by
  have ht : (key ++ '}' :: rest).takeWhile (fun d => decide (d ≠ '}')) = key := by
    rw [takeWhile_all_append _ _ _ (fun c hc => by simpa using hfree c hc)]
    simp [List.takeWhile_cons]
  have hd : (key ++ '}' :: rest).dropWhile (fun d => decide (d ≠ '}')) = '}' :: rest := by
    rw [dropWhile_all_append _ _ _ (fun c hc => by simpa using hfree c hc)]
    simp [List.dropWhile_cons]
  unfold resolveTemplate
  simp only [List.length_cons, resolveTemplateFuel]
  rw [ht, hd, if_neg hne, if_neg (by simp : ('}' :: rest) ≠ [])]
  simp only [List.tail_cons]
  rw [resolveTemplateFuel_congr (key ++ '}' :: rest).length ts rest rest.length
    (by simp only [List.length_append, List.length_cons]; omega) (by omega)]
  simp

theorem resolve_nil (ts : List Char) : resolveTemplate ts [] = [] := rfl

theorem resolve_no_brace (ts s : List Char) (h : '{' ∉ s) :
    resolveTemplate ts s = s := by
  induction s with
  | nil => exact resolve_nil ts
  | cons c rest ih =>
    have hc : c ≠ '{' := fun e => h (e ▸ List.mem_cons_self c rest)
    rw [resolve_cons_not_brace ts c rest hc,
      ih (fun m => h (List.mem_cons_of_mem c m))]

theorem resolve_append_left (ts a b : List Char) (h : '{' ∉ a) :
    resolveTemplate ts (a ++ b) = a ++ resolveTemplate ts b := by
  induction a with
  | nil => rfl
  | cons c a' ih =>
    have hc : c ≠ '{' := fun e => h (e ▸ List.mem_cons_self c a')
    rw [List.cons_append, resolve_cons_not_brace ts c _ hc,
      ih (fun m => h (List.mem_cons_of_mem c m))]
    rfl

/-- C3: resolving a path template substitutes each occurrence of the
recognized `{timestamp}` placeholder with the formatted job-creation
timestamp and leaves every other brace-delimited placeholder (and every
literal character) verbatim; resolution is a total function, so no
input raises an error. Stated over any template presented as its
unambiguous token decomposition. -/
theorem C3_placeholder_substitution (created : Nat) (toks : List PathTok)
    (hwf : ∀ t ∈ toks, WfTok t) :
    resolveTemplate (formatTimestampLocal created) (renderToks toks) =
      (toks.map (substTok (formatTimestampLocal created))).flatten := by
  induction toks with
  | nil => exact resolve_nil _
  | cons t rest ih =>
    cases t with
    | lit c =>
      have hc : c ≠ '{' := hwf (.lit c) (by simp)
      simp only [renderToks]
      rw [resolve_cons_not_brace _ c _ hc,
        ih (fun u hu => hwf u (List.mem_cons_of_mem _ hu))]
      simp [substTok]
    | ph k =>
      obtain ⟨hk1, hk2⟩ : k ≠ [] ∧ ∀ d ∈ k, d ≠ '}' := hwf (.ph k) (by simp)
      simp only [renderToks]
      rw [resolve_cons_group _ k _ hk1 hk2,
        ih (fun u hu => hwf u (List.mem_cons_of_mem _ hu))]
      simp [substTok]

/-- Witness for C3: a template with the timestamp placeholder, an
unrecognized `{other}` placeholder and literal characters, resolved at
creation time 0. -/
theorem C3_placeholder_substitution_witness :
    (∀ t ∈ [PathTok.ph tsKey, PathTok.lit '/', PathTok.ph ("other").toList,
      PathTok.lit 'a'], WfTok t) ∧
    resolveTemplate (formatTimestampLocal 0)
        (renderToks [PathTok.ph tsKey, PathTok.lit '/',
          PathTok.ph ("other").toList, PathTok.lit 'a']) =
      (([PathTok.ph tsKey, PathTok.lit '/', PathTok.ph ("other").toList,
        PathTok.lit 'a']).map (substTok (formatTimestampLocal 0))).flatten :=
  ⟨by decide, C3_placeholder_substitution 0
    [PathTok.ph tsKey, PathTok.lit '/', PathTok.ph ("other").toList,
     PathTok.lit 'a'] (by decide)⟩

theorem digitChar'_mem_digits (d : Nat) : digitChar' d ∈ digitsList := by
  unfold digitChar'
  repeat' split
  all_goals decide

theorem natChars_mem_digits (n : Nat) : ∀ c ∈ natChars n, c ∈ digitsList := by
  induction n using Nat.strong_induction_on with
  | _ n ih =>
    rw [natChars_eq]
    split
    · intro c hc
      simp at hc
      subst hc
      exact digitChar'_mem_digits n
    · intro c hc
      rcases List.mem_append.1 hc with h | h
      · exact ih (n / 10) (Nat.div_lt_self (by omega) (by omega)) c h
      · simp at h
        subst h
        exact digitChar'_mem_digits _

theorem pad2_mem (n : Nat) : ∀ c ∈ pad2 n, c ∈ digitsList := by
  intro c hc
  rw [pad2] at hc
  split at hc
  · rcases List.mem_cons.1 hc with h | h
    · subst h; decide
    · exact natChars_mem_digits n c h
  · exact natChars_mem_digits n c hc

theorem formatTimestampLocal_chars (created : Nat) :
    ∀ c ∈ formatTimestampLocal created, c ∈ digitsList ∨ c = '_' ∨ c = '-' := by
  intro c hc
  rw [formatTimestampLocal] at hc
  rcases List.mem_append.1 hc with h | h
  · exact Or.inl (natChars_mem_digits _ c h)
  rcases List.mem_cons.1 h with h | h
  · exact Or.inr (Or.inl h)
  rcases List.mem_append.1 h with h | h
  · exact Or.inl (pad2_mem _ c h)
  rcases List.mem_cons.1 h with h | h
  · exact Or.inr (Or.inr h)
  rcases List.mem_append.1 h with h | h
  · exact Or.inl (pad2_mem _ c h)
  rcases List.mem_cons.1 h with h | h
  · exact Or.inr (Or.inr h)
  · exact Or.inl (pad2_mem _ c h)

theorem ts_no_open_brace (created : Nat) : '{' ∉ formatTimestampLocal created := by
  intro h
  rcases formatTimestampLocal_chars created '{' h with h' | h' | h' <;> revert h' <;> decide

theorem mem_joinSegs (sep : Char) (parts : List (List Char)) (c : Char)
    (h : c ∈ joinSegs sep parts) : c = sep ∨ ∃ p ∈ parts, c ∈ p := by
  induction parts with
  | nil => simp [joinSegs] at h
  | cons p rest ih =>
    cases rest with
    | nil =>
      simp only [joinSegs] at h
      exact Or.inr ⟨p, by simp, h⟩
    | cons q rest' =>
      simp only [joinSegs] at h
      rcases List.mem_append.1 h with h1 | h1
      · exact Or.inr ⟨p, by simp, h1⟩
      rcases List.mem_cons.1 h1 with h2 | h2
      · exact Or.inl h2
      rcases ih h2 with h3 | ⟨r, hr, hcr⟩
      · exact Or.inl h3
      · exact Or.inr ⟨r, List.mem_cons_of_mem p hr, hcr⟩

theorem joinSegs_split_two (sep : Char) (parts1 : List (List Char))
    (x y : List Char) (h : parts1 ≠ []) :
    joinSegs sep (parts1 ++ [x, y]) =
      joinSegs sep parts1 ++ sep :: (x ++ sep :: y) := by
  rw [show parts1 ++ [x, y] = (parts1 ++ [x]) ++ [y] by simp,
    joinSegs_concat sep (parts1 ++ [x]) y (by simp),
    joinSegs_concat sep parts1 x h]
  simp

theorem resolve_template_with_ts (ts A fnp : List Char)
    (hA : '{' ∉ A) (hf : '{' ∉ fnp) :
    resolveTemplate ts (A ++ sep' :: (tsSegment ++ sep' :: fnp)) =
      A ++ sep' :: (ts ++ sep' :: fnp) := by
  rw [resolve_append_left ts A _ hA,
    resolve_cons_not_brace ts sep' _ (by decide),
    show tsSegment ++ sep' :: fnp = '{' :: (tsKey ++ '}' :: (sep' :: fnp)) from rfl,
    resolve_cons_group ts tsKey _ (by decide) (by decide),
    if_pos rfl,
    resolve_cons_not_brace ts sep' fnp (by decide),
    resolve_no_brace ts fnp hf]

theorem resolved_no_open_brace (ts A fnp : List Char)
    (hts : '{' ∉ ts) (hA : '{' ∉ A) (hf : '{' ∉ fnp) :
    '{' ∉ A ++ sep' :: (ts ++ sep' :: fnp) := by
  intro m
  rcases List.mem_append.1 m with h | h
  · exact hA h
  rcases List.mem_cons.1 h with h | h
  · exact absurd h (by decide)
  rcases List.mem_append.1 h with h | h
  · exact hts h
  rcases List.mem_cons.1 h with h | h
  · exact absurd h (by decide)
  · exact hf h

theorem no_ts_substring (out : List Char) (h : '{' ∉ out) (a b : List Char) :
    out ≠ a ++ tsSegment ++ b := by
  intro e
  apply h
  rw [e]
  have hm : '{' ∈ tsSegment := by decide
  simp only [List.mem_append]
  tauto

theorem blenderCompileJob_ok (job : Job) (out : List Char)
    (tasks : List RenderTask)
    (h : BlenderPath.compileJob job = .ok (out, tasks)) :
    out = renderOutputPath job ∧
    ∃ chunks, frameChunker job.settings.frames job.settings.chunk_size = .ok chunks ∧
      tasks = chunks.map (authorOneTask job.settings
        (dirname (renderOutputPath job)) (renderOutputPath job)) := by
  unfold BlenderPath.compileJob at h
  split at h
  · exact absurd h (by simp)
  · rcases hA : authorRenderTasks job.settings (dirname (renderOutputPath job))
        (renderOutputPath job) with e | ts0
    all_goals rw [hA] at h
    · exact absurd h (by simp)
    · simp only [Except.ok.injEq, Prod.mk.injEq] at h
      obtain ⟨h1, h2⟩ := h
      unfold authorRenderTasks at hA
      rcases hC : frameChunker job.settings.frames job.settings.chunk_size
        with e | chunks
      all_goals rw [hC] at hA
      · exact absurd hA (by simp)
      · simp only [Except.ok.injEq] at hA
        exact ⟨h1.symm, chunks, rfl, by rw [← h2, ← hA]⟩

theorem rootCompileJob_ok (job : Job) (out : List Char)
    (tasks : List RenderTask)
    (h : RootBased.compileJob job = .ok (out, tasks)) :
    out = renderOutputPath job ∧
    ∃ chunks, frameChunker job.settings.frames job.settings.chunk_size = .ok chunks ∧
      tasks = chunks.map (authorOneTask job.settings
        (dirname (renderOutputPath job)) (renderOutputPath job)) := by
  unfold RootBased.compileJob at h
  split at h
  · exact absurd h (by simp)
  split at h
  · exact absurd h (by simp)
  rcases hA : authorRenderTasks job.settings (dirname (renderOutputPath job))
      (renderOutputPath job) with e | ts0
  all_goals rw [hA] at h
  · exact absurd h (by simp)
  · simp only [Except.ok.injEq, Prod.mk.injEq] at h
    obtain ⟨h1, h2⟩ := h
    unfold authorRenderTasks at hA
    rcases hC : frameChunker job.settings.frames job.settings.chunk_size
      with e | chunks
    all_goals rw [hC] at hA
    · exact absurd hA (by simp)
    · simp only [Except.ok.injEq] at hA
      exact ⟨h1.symm, chunks, rfl, by rw [← h2, ← hA]⟩

theorem sharesOutput_of_ok (job : Job) (out : List Char)
    (tasks : List RenderTask) (h1 : out = renderOutputPath job)
    (chunks : List (List Char))
    (h2 : tasks = chunks.map (authorOneTask job.settings
      (dirname (renderOutputPath job)) (renderOutputPath job))) :
    out = resolveTemplate (formatTimestampLocal job.created)
            job.settings.render_output_path ∧
    ∀ t ∈ tasks, ∃ c pre tok, t.commands = [c] ∧
      c.args = pre ++
        [("--render-output").toList, pathJoin (dirname out) (basenameOf out),
         ("--render-format").toList, job.settings.format,
         ("--render-frame").toList, tok] := by
  constructor
  · rw [h1]; rfl
  · intro t ht
    subst h2
    obtain ⟨chunk, hc, rfl⟩ := List.mem_map.1 ht
    refine ⟨_, baseArgs job.settings ++ overwriteArgs job.settings,
      chunk.flatMap (fun c => if c = '-' then ['.', '.'] else [c]), rfl, ?_⟩
    simp only [authorOneTask]
    rw [h1]

/-- C2: the timestamp entering the output path comes from `job.created`
and the path is resolved once per compilation, before any task is
authored: whenever either variant's `compileJob` succeeds, the returned
output path equals the job's template resolved with the formatted
creation time, and every authored task's `--render-output` argument is
the one value rebuilt from that single resolved path (so all tasks share
a byte-identical output location); moreover, for a non-stable job whose
template was produced by either variant's `render_output_path` eval from
brace-free components, the literal `\x7btimestamp\x7d` never occurs in
the resolved output. -/
theorem C2_single_timestamp_resolution :
    CompileSharesOutput BlenderPath.compileJob ∧
    CompileSharesOutput RootBased.compileJob ∧
    (∀ (job : Job) (filedir filename : List Char),
      job.settings.stable_directory = false →
      job.settings.render_output_path =
        BlenderPath.render_output_path filedir filename false →
      '{' ∉ filedir → '{' ∉ filename →
      ∀ a b, renderOutputPath job ≠ a ++ tsSegment ++ b) ∧
    (∀ (job : Job) (root jobname filename : List Char)
      (blendDirSegs : List (List Char)) (n : Nat),
      job.settings.stable_directory = false →
      job.settings.render_output_path =
        RootBased.render_output_path root blendDirSegs n jobname filename false →
      '{' ∉ root → (∀ p ∈ blendDirSegs, '{' ∉ p) →
      '{' ∉ jobname → '{' ∉ filename →
      ∀ a b, renderOutputPath job ≠ a ++ tsSegment ++ b) := by
  refine ⟨?_, ?_, ?_, ?_⟩
  · intro job out tasks h
    obtain ⟨h1, chunks, hC, h2⟩ := blenderCompileJob_ok job out tasks h
    exact sharesOutput_of_ok job out tasks h1 chunks h2
  · intro job out tasks h
    obtain ⟨h1, chunks, hC, h2⟩ := rootCompileJob_ok job out tasks h
    exact sharesOutput_of_ok job out tasks h1 chunks h2
  · intro job filedir filename _hstable htmpl hfd hfn a b
    have hfn' : '{' ∉ filename ++ hashesTok := by
      intro m
      rcases List.mem_append.1 m with h | h
      · exact hfn h
      · exact absurd h (by decide)
    have htm : job.settings.render_output_path =
        filedir ++ sep' :: (tsSegment ++ sep' :: (filename ++ hashesTok)) := by
      rw [htmpl]
      simp [BlenderPath.render_output_path, joinSegs]
    rw [renderOutputPath, htm,
      resolve_template_with_ts _ filedir (filename ++ hashesTok) hfd hfn']
    exact no_ts_substring _ (resolved_no_open_brace _ filedir _
      (ts_no_open_brace job.created) hfd hfn') a b
  · intro job root jobname filename blendDirSegs n _hstable htmpl hrt hsegs hjob hfn a b
    have hfn' : '{' ∉ filename ++ hashesTok := by
      intro m
      rcases List.mem_append.1 m with h | h
      · exact hfn h
      · exact absurd h (by decide)
    have hA : '{' ∉ joinSegs sep'
        ([root] ++ lastNDirParts n blendDirSegs ++ [jobname]) := by
      intro m
      rcases mem_joinSegs sep' _ '{' m with h | ⟨p, hp, hcp⟩
      · exact absurd h (by decide)
      · rcases List.mem_append.1 hp with h' | h'
        · rcases List.mem_append.1 h' with h'' | h''
          · simp at h''
            subst h''
            exact hrt hcp
          · exact hsegs p (List.drop_subset _ _ h'') hcp
        · simp at h'
          subst h'
          exact hjob hcp
    have htm : job.settings.render_output_path =
        joinSegs sep' ([root] ++ lastNDirParts n blendDirSegs ++ [jobname]) ++
          sep' :: (tsSegment ++ sep' :: (filename ++ hashesTok)) := by
      rw [htmpl]
      simp only [RootBased.render_output_path, Bool.false_eq_true, if_false]
      rw [show [root] ++ lastNDirParts n blendDirSegs ++ [jobname] ++
          [tsSegment] ++ [filename ++ hashesTok] =
        ([root] ++ lastNDirParts n blendDirSegs ++ [jobname]) ++
          [tsSegment, filename ++ hashesTok] by simp]
      exact joinSegs_split_two sep' _ tsSegment (filename ++ hashesTok) (by simp)
    rw [renderOutputPath, htm,
      resolve_template_with_ts _ _ (filename ++ hashesTok) hA hfn']
    exact no_ts_substring _ (resolved_no_open_brace _ _ _
      (ts_no_open_brace job.created) hA hfn') a b

/-- Witness for C2 at the sample non-stable scene-relative job: the
compile succeeds, the resolved path is the template resolved with the
creation timestamp, every task shares the rebuilt output argument, and
the literal placeholder does not survive into the output. -/
theorem C2_single_timestamp_resolution_witness :
    (renderOutputPath jobA =
      resolveTemplate (formatTimestampLocal jobA.created)
        jobA.settings.render_output_path ∧
      ∀ t ∈ BlenderPath.addedTasks jobA, ∃ c pre tok, t.commands = [c] ∧
        c.args = pre ++
          [("--render-output").toList,
           pathJoin (dirname (renderOutputPath jobA))
             (basenameOf (renderOutputPath jobA)),
           ("--render-format").toList, jobA.settings.format,
           ("--render-frame").toList, tok]) ∧
    (∀ a b, renderOutputPath jobA ≠ a ++ tsSegment ++ b) := by
  obtain ⟨p1, _, p3, _⟩ := C2_single_timestamp_resolution
  exact ⟨p1 jobA (renderOutputPath jobA) (BlenderPath.addedTasks jobA) (by decide),
    p3 jobA ("/proj/render").toList ("Anim03").toList rfl rfl
      (by decide) (by decide)⟩

theorem mem_digits_facts (c : Char) (h : c ∈ digitsList) :
    c.isDigit = true ∧ c ≠ '-' ∧ c ≠ ',' ∧ c.isWhitespace = false := by
  fin_cases h <;> decide

theorem natChars_ne_nil (n : Nat) : natChars n ≠ [] := by
  rw [natChars_eq]
  split <;> simp

theorem natChars_all_digit (n : Nat) : (natChars n).all Char.isDigit = true := by
  rw [List.all_eq_true]
  intro c hc
  exact (mem_digits_facts c (natChars_mem_digits n c hc)).1

theorem digitVal_digitChar' (d : Nat) (h : d < 10) :
    digitVal (digitChar' d) = d := by
  interval_cases d <;> decide

theorem natChars_foldl (n : Nat) :
    (natChars n).foldl (fun acc c => 10 * acc + digitVal c) 0 = n := by
  induction n using Nat.strong_induction_on with
  | _ n ih =>
    rw [natChars_eq]
    split
    · simp [digitVal_digitChar' n (by omega)]
    · rw [List.foldl_append, ih (n / 10) (Nat.div_lt_self (by omega) (by omega))]
      simp [digitVal_digitChar' (n % 10) (by omega)]
      omega

theorem parseNat_natChars (n : Nat) : parseNat (natChars n) = some n := by
  unfold parseNat
  rw [if_pos ⟨natChars_ne_nil n, natChars_all_digit n⟩, natChars_foldl]

theorem dropWhile_all_false (p : Char → Bool) (s : List Char)
    (h : ∀ c ∈ s, p c = false) : s.dropWhile p = s := by
  cases s with
  | nil => rfl
  | cons c rest =>
    rw [List.dropWhile_cons, h c (by simp)]
    simp

theorem trimStr_id (s : List Char) (h : ∀ c ∈ s, c.isWhitespace = false) :
    trimStr s = s := by
  unfold trimStr
  rw [dropWhile_all_false _ s (fun c hc => h c hc),
    dropWhile_all_false _ s.reverse (fun c hc => h c (List.mem_reverse.1 hc)),
    List.reverse_reverse]

theorem runTok_mem (a e : Nat) (c : Char)
    (h : c ∈ (if e = a then natChars a else natChars a ++ '-' :: natChars e)) :
    c ∈ digitsList ∨ c = '-' := by
  split at h
  · exact Or.inl (natChars_mem_digits a c h)
  · rcases List.mem_append.1 h with h' | h'
    · exact Or.inl (natChars_mem_digits a c h')
    rcases List.mem_cons.1 h' with h' | h'
    · exact Or.inr h'
    · exact Or.inl (natChars_mem_digits e c h')

theorem runTok_parses (a e : Nat) (hae : a ≤ e) :
    parseFrameTok (trimStr
      (if e = a then natChars a else natChars a ++ '-' :: natChars e)) =
      some (List.range' a (e + 1 - a)) := by
  rw [trimStr_id _ (fun c hc => by
    rcases runTok_mem a e c hc with h | h
    · exact (mem_digits_facts c h).2.2.2
    · subst h; decide)]
  split
  · rename_i he
    subst he
    unfold parseFrameTok
    rw [splitSep_sepFree '-' (natChars e) (fun m =>
      (mem_digits_facts '-' (natChars_mem_digits e '-' m)).2.1 rfl)]
    simp [parseNat_natChars, show e + 1 - e = 1 from by omega, List.range']
  · unfold parseFrameTok
    rw [splitSep_append_sep '-' (natChars a) (natChars e),
      splitSep_sepFree '-' (natChars a) (fun m =>
        (mem_digits_facts '-' (natChars_mem_digits a '-' m)).2.1 rfl),
      splitSep_sepFree '-' (natChars e) (fun m =>
        (mem_digits_facts '-' (natChars_mem_digits e '-' m)).2.1 rfl)]
    simp [parseNat_natChars, if_pos hae]

theorem takeRun_le (a : Nat) (l : List Nat) : a ≤ (takeRun a l).1 := by
  induction l generalizing a with
  | nil => simp [takeRun]
  | cons b rest ih =>
    simp only [takeRun]
    split
    · rename_i hb
      subst hb
      exact le_trans (by omega) (ih (a + 1))
    · simp

theorem takeRun_decomp (a : Nat) (l : List Nat) :
    a :: l = List.range' a ((takeRun a l).1 + 1 - a) ++ (takeRun a l).2 := by
  induction l generalizing a with
  | nil => simp [takeRun, List.range']
  | cons b rest ih =>
    simp only [takeRun]
    split
    · rename_i hb
      subst hb
      have hle := takeRun_le (a + 1) rest
      rw [show (takeRun (a + 1) rest).1 + 1 - a =
        ((takeRun (a + 1) rest).1 + 1 - (a + 1)) + 1 by omega]
      rw [List.range'_succ]
      simp only [List.cons_append]
      rw [← ih (a + 1)]
    · simp [List.range', show a + 1 - a = 1 from by omega]

theorem takeRun_chain (a : Nat) (l : List Nat) (h : List.Chain' (· < ·) (a :: l)) :
    ∀ b rest', (takeRun a l).2 = b :: rest' →
      List.Chain' (· < ·) (b :: rest') ∧ (takeRun a l).1 < b := by
  induction l generalizing a with
  | nil => intro b rest' hr; simp [takeRun] at hr
  | cons b0 rest0 ih =>
    intro b rest' hr
    rcases List.chain'_cons.1 h with ⟨hab, hch⟩
    by_cases hb : b0 = a + 1
    · subst hb
      have ht : takeRun a ((a + 1) :: rest0) = takeRun (a + 1) rest0 := by
        simp [takeRun]
      rw [ht] at hr ⊢
      exact ih (a + 1) hch b rest' hr
    · have ht : takeRun a (b0 :: rest0) = (a, b0 :: rest0) := by
        simp [takeRun, hb]
      rw [ht] at hr ⊢
      simp only [] at hr
      injection hr with h1 h2
      subst h1 h2
      exact ⟨hch, by simpa using hab⟩

theorem comma_not_mem_runTok (a e : Nat) :
    ',' ∉ (if e = a then natChars a else natChars a ++ '-' :: natChars e) := by
  intro m
  rcases runTok_mem a e ',' m with h | h
  · exact (mem_digits_facts ',' h).2.2.1 rfl
  · exact absurd h (by decide)

theorem insertSorted_eq_cons (x : Nat) (l : List Nat)
    (h : List.Chain' (· < ·) (x :: l)) : insertSorted x l = x :: l := by
  cases l with
  | nil => rfl
  | cons a rest =>
    rcases List.chain'_cons.1 h with ⟨hxa, _⟩
    simp [insertSorted, hxa]

theorem sortDedup_of_chain (l : List Nat) (h : List.Chain' (· < ·) l) :
    sortDedup l = l := by
  induction l with
  | nil => rfl
  | cons x rest ih =>
    show insertSorted x (sortDedup rest) = x :: rest
    rw [ih h.tail]
    exact insertSorted_eq_cons x rest h

theorem insertSorted_headOpts (x : Nat) (l : List Nat) :
    (insertSorted x l).head? = some x ∨ (insertSorted x l).head? = l.head? := by
  cases l with
  | nil => exact Or.inl rfl
  | cons a rest =>
    simp only [insertSorted]
    split
    · exact Or.inl rfl
    split
    · exact Or.inr rfl
    · exact Or.inr rfl

theorem insertSorted_chain (x : Nat) (l : List Nat)
    (h : List.Chain' (· < ·) l) : List.Chain' (· < ·) (insertSorted x l) := by
  induction l with
  | nil => simp [insertSorted]
  | cons a rest ih =>
    simp only [insertSorted]
    split
    · rename_i hx
      exact List.chain'_cons.2 ⟨hx, h⟩
    split
    · exact h
    · rename_i hx1 hx2
      have hax : a < x := by omega
      rw [List.chain'_cons']
      refine ⟨?_, ih h.tail⟩
      intro y hy
      rcases insertSorted_headOpts x rest with h1 | h1
      · rw [h1] at hy
        simp at hy
        omega
      · rw [h1] at hy
        exact (List.chain'_cons'.1 h).1 y hy

theorem sortDedup_chain (l : List Nat) : List.Chain' (· < ·) (sortDedup l) := by
  induction l with
  | nil => simp [sortDedup]
  | cons x rest ih => exact insertSorted_chain x (sortDedup rest) ih

theorem natTok_parses (a : Nat) : parseFrameTok (trimStr (natChars a)) = some [a] := by
  have h := runTok_parses a a le_rfl
  rw [if_pos rfl] at h
  rw [h]
  simp [show a + 1 - a = 1 from by omega, List.range']

theorem serializeChain_parses : ∀ (len : Nat) (l : List Nat) (a : Nat),
    l.length ≤ len → List.Chain' (· < ·) (a :: l) →
    ∃ ls, parseToks (splitSep ',' (serializeChain a l)) = some ls ∧
      ls.flatten = a :: l := by
  intro len
  induction len with
  | zero =>
    intro l a h0 _hch
    have hl : l = [] := List.length_eq_zero.1 (by omega)
    subst hl
    rw [serializeChain_eq_nil a a [] (by simp [takeRun]), if_pos rfl,
      splitSep_sepFree ',' _ (fun m =>
        (mem_digits_facts ',' (natChars_mem_digits a ',' m)).2.2.1 rfl)]
    simp only [parseToks]
    rw [natTok_parses a]
    exact ⟨[[a]], rfl, by simp⟩
  | succ len ih =>
    intro l a hlen hch
    rcases hr : takeRun a l with ⟨e, rest⟩
    have hdec := takeRun_decomp a l
    rw [hr] at hdec
    have hae : a ≤ e := by
      have := takeRun_le a l
      rw [hr] at this
      exact this
    cases rest with
    | nil =>
      rw [serializeChain_eq_nil a e l hr,
        splitSep_sepFree ',' _ (comma_not_mem_runTok a e)]
      simp only [parseToks]
      rw [runTok_parses a e hae]
      exact ⟨[List.range' a (e + 1 - a)], rfl, by simpa using hdec.symm⟩
    | cons b rest' =>
      rw [serializeChain_eq_cons a e b l rest' hr,
        splitSep_append_sep ',' _ (serializeChain b rest'),
        splitSep_sepFree ',' _ (comma_not_mem_runTok a e)]
      have hbr : (takeRun a l).2 = b :: rest' := by rw [hr]
      obtain ⟨hch', _⟩ := takeRun_chain a l hch b rest' hbr
      have hrl : rest'.length ≤ len := by
        have := takeRun_rest_length a l
        rw [hr] at this
        simp only [List.length_cons] at this
        omega
      obtain ⟨ls', hp', hf'⟩ := ih rest' b hrl hch'
      refine ⟨List.range' a (e + 1 - a) :: ls', ?_, ?_⟩
      · simp only [List.singleton_append, List.append_eq, List.nil_append, parseToks]
        rw [runTok_parses a e hae, hp']
      · rw [List.flatten_cons, hf', ← hdec]

theorem parse_serializeFrames (g : List Nat) (hne : g ≠ [])
    (hch : List.Chain' (· < ·) g) :
    parseFrameSet (serializeFrames g) = some g := by
  match g, hne with
  | a :: l, _ =>
    show parseFrameSet (serializeChain a l) = some (a :: l)
    unfold parseFrameSet
    obtain ⟨ls, hp, hf⟩ := serializeChain_parses l.length l a le_rfl hch
    rw [hp]
    simp only [Option.map_some']
    rw [hf, sortDedup_of_chain _ hch]

theorem chunksOf1_flatten (m : Nat) : ∀ (len : Nat) (l : List Nat),
    l.length ≤ len → (chunksOf1 m l).flatten = l := by
  intro len
  induction len with
  | zero =>
    intro l h0
    have : l = [] := List.length_eq_zero.1 (by omega)
    subst this
    rfl
  | succ len ih =>
    intro l hl
    cases l with
    | nil => rfl
    | cons a rest =>
      rw [chunksOf1_cons, List.flatten_cons,
        ih (rest.drop m)
          (by simp only [List.length_cons] at hl; simp only [List.length_drop]; omega)]
      simp [List.take_append_drop]

theorem chunksOf1_eq_nil_iff (m : Nat) (l : List Nat) :
    chunksOf1 m l = [] ↔ l = [] := by
  cases l with
  | nil => simp [chunksOf1, chunksOf1Fuel]
  | cons a rest =>
    rw [chunksOf1_cons]
    simp

theorem mem_chunksOf1 (m : Nat) : ∀ (len : Nat) (l : List Nat),
    l.length ≤ len → ∀ c ∈ chunksOf1 m l, c ≠ [] ∧ c.length ≤ m + 1 := by
  intro len
  induction len with
  | zero =>
    intro l h0 c hc
    have : l = [] := List.length_eq_zero.1 (by omega)
    subst this
    simp [chunksOf1, chunksOf1Fuel] at hc
  | succ len ih =>
    intro l hl c hc
    cases l with
    | nil => simp [chunksOf1, chunksOf1Fuel] at hc
    | cons a rest =>
      rw [chunksOf1_cons] at hc
      rcases List.mem_cons.1 hc with h | h
      · subst h
        refine ⟨by simp, ?_⟩
        simp only [List.length_cons, List.length_take]
        omega
      · exact ih (rest.drop m)
          (by simp only [List.length_cons] at hl; simp only [List.length_drop]; omega) c h

theorem chunksOf1_dropLast_full (m : Nat) : ∀ (len : Nat) (l : List Nat),
    l.length ≤ len → ∀ c ∈ (chunksOf1 m l).dropLast, c.length = m + 1 := by
  intro len
  induction len with
  | zero =>
    intro l h0 c hc
    have : l = [] := List.length_eq_zero.1 (by omega)
    subst this
    simp [chunksOf1, chunksOf1Fuel] at hc
  | succ len ih =>
    intro l hl c hc
    cases l with
    | nil => simp [chunksOf1, chunksOf1Fuel] at hc
    | cons a rest =>
      rw [chunksOf1_cons] at hc
      by_cases hd : chunksOf1 m (rest.drop m) = []
      · rw [hd] at hc
        simp at hc
      · rw [List.dropLast_cons_of_ne_nil hd] at hc
        rcases List.mem_cons.1 hc with h | h
        · subst h
          have hrest : rest.drop m ≠ [] := by
            intro e
            exact hd (by rw [e]; rfl)
          have hlen : m < rest.length := by
            by_contra hc2
            exact hrest (List.drop_eq_nil_of_le (by omega))
          simp only [List.length_cons, List.length_take]
          omega
        · exact ih (rest.drop m)
            (by simp only [List.length_cons] at hl; simp only [List.length_drop]; omega) c h

theorem chunksOf1_chain (m : Nat) : ∀ (len : Nat) (l : List Nat),
    l.length ≤ len → List.Chain' (· < ·) l →
    ∀ c ∈ chunksOf1 m l, List.Chain' (· < ·) c := by
  intro len
  induction len with
  | zero =>
    intro l h0 _ c hc
    have : l = [] := List.length_eq_zero.1 (by omega)
    subst this
    simp [chunksOf1, chunksOf1Fuel] at hc
  | succ len ih =>
    intro l hl hch c hc
    cases l with
    | nil => simp [chunksOf1, chunksOf1Fuel] at hc
    | cons a rest =>
      rw [chunksOf1_cons] at hc
      rcases List.mem_cons.1 hc with h | h
      · subst h
        have : a :: rest.take m = (a :: rest).take (m + 1) := by
          simp [List.take_succ_cons]
        rw [this]
        exact hch.take (m + 1)
      · have hdch : List.Chain' (· < ·) (rest.drop m) := by
          have : rest.drop m = (a :: rest).drop (m + 1) := by
            simp [List.drop_succ_cons]
          rw [this]
          exact hch.drop (m + 1)
        exact ih (rest.drop m)
          (by simp only [List.length_cons] at hl; simp only [List.length_drop]; omega) hdch c h

theorem dropLast_map (f : List Nat → List Char) (l : List (List Nat)) :
    (l.map f).dropLast = l.dropLast.map f := by
  induction l with
  | nil => rfl
  | cons a rest ih =>
    cases rest with
    | nil => rfl
    | cons b rest' =>
      simp only [List.map_cons, List.dropLast_cons₂, ih]
      simp

theorem parseFrameSet_chain (s : List Char) (l : List Nat)
    (hp : parseFrameSet s = some l) : List.Chain' (· < ·) l := by
  unfold parseFrameSet at hp
  rcases hq : parseToks (splitSep ',' s) with _ | ls
  · rw [hq] at hp
    simp at hp
  · rw [hq] at hp
    simp only [Option.map_some', Option.some.injEq] at hp
    rw [← hp]
    exact sortDedup_chain ls.flatten

/-- C4: for every valid frame-range expression and chunk size at least 1,
the chunker succeeds and its chunks partition the parsed frame set
exactly — the concatenation of the chunks' frame sets is the parsed
ascending list, each chunk is nonempty with at most `chunk_size` frames,
every chunk but the last has exactly `chunk_size` frames — and task
authoring attaches each chunk's frame count to its task's one command. -/
theorem C4_chunk_partition (settings : Settings) (l : List Nat)
    (renderDir renderOutput : List Char)
    (hn : 1 ≤ settings.chunk_size)
    (hp : parseFrameSet settings.frames = some l) :
    List.Chain' (· < ·) l ∧
    ∃ chunks, frameChunker settings.frames settings.chunk_size = .ok chunks ∧
      (chunks.map chunkFrames).flatten = l ∧
      (∀ c ∈ chunks, chunkFrames c ≠ [] ∧
        (chunkFrames c).length ≤ settings.chunk_size.toNat) ∧
      (∀ c ∈ chunks.dropLast, (chunkFrames c).length = settings.chunk_size.toNat) ∧
      ∃ tasks, authorRenderTasks settings renderDir renderOutput = .ok tasks ∧
        tasks.length = chunks.length ∧
        ∀ (i : Nat) (c : List Char) (t : RenderTask),
          chunks[i]? = some c → tasks[i]? = some t →
          ∃ cmd, t.commands = [cmd] ∧ cmd.count = (chunkFrames c).length := by
  have hch := parseFrameSet_chain settings.frames l hp
  have hC : frameChunker settings.frames settings.chunk_size =
      .ok ((chunksOf1 (settings.chunk_size.toNat - 1) l).map serializeFrames) := by
    unfold frameChunker
    rw [if_neg (by omega), hp]
  have hm1 : settings.chunk_size.toNat - 1 + 1 = settings.chunk_size.toNat := by
    omega
  have hgrp : ∀ g ∈ chunksOf1 (settings.chunk_size.toNat - 1) l,
      chunkFrames (serializeFrames g) = g := by
    intro g hg
    obtain ⟨hne, _⟩ := mem_chunksOf1 (settings.chunk_size.toNat - 1) l.length l
      le_rfl g hg
    have hgc := chunksOf1_chain (settings.chunk_size.toNat - 1) l.length l
      le_rfl hch g hg
    unfold chunkFrames
    rw [parse_serializeFrames g hne hgc]
    rfl
  refine ⟨hch, (chunksOf1 (settings.chunk_size.toNat - 1) l).map serializeFrames,
    hC, ?_, ?_, ?_, ?_⟩
  · rw [List.map_map]
    have hmc : List.map (chunkFrames ∘ serializeFrames)
        (chunksOf1 (settings.chunk_size.toNat - 1) l) =
        List.map id (chunksOf1 (settings.chunk_size.toNat - 1) l) :=
      List.map_congr_left (fun g hg => hgrp g hg)
    rw [hmc, List.map_id]
    exact chunksOf1_flatten (settings.chunk_size.toNat - 1) l.length l le_rfl
  · intro c hc
    obtain ⟨g, hg, rfl⟩ := List.mem_map.1 hc
    obtain ⟨hne, hle⟩ := mem_chunksOf1 (settings.chunk_size.toNat - 1) l.length l
      le_rfl g hg
    rw [hgrp g hg]
    exact ⟨hne, by omega⟩
  · intro c hc
    rw [dropLast_map] at hc
    obtain ⟨g, hg, rfl⟩ := List.mem_map.1 hc
    have hgm : g ∈ chunksOf1 (settings.chunk_size.toNat - 1) l :=
      List.dropLast_subset _ hg
    rw [hgrp g hgm]
    rw [chunksOf1_dropLast_full (settings.chunk_size.toNat - 1) l.length l
      le_rfl g hg]
    omega
  · refine ⟨((chunksOf1 (settings.chunk_size.toNat - 1) l).map serializeFrames).map
      (authorOneTask settings renderDir renderOutput), ?_, by simp, ?_⟩
    · unfold authorRenderTasks
      rw [hC]
    · intro i c t hic hit
      rw [List.getElem?_map, hic] at hit
      simp only [Option.map_some', Option.some.injEq] at hit
      subst hit
      refine ⟨_, rfl, ?_⟩
      have hcm : c ∈ (chunksOf1 (settings.chunk_size.toNat - 1) l).map
          serializeFrames := List.getElem?_mem hic
      obtain ⟨g, hg, rfl⟩ := List.mem_map.1 hcm
      show frameCount (serializeFrames g) = (chunkFrames (serializeFrames g)).length
      obtain ⟨hne, _⟩ := mem_chunksOf1 (settings.chunk_size.toNat - 1) l.length l
        le_rfl g hg
      have hgc := chunksOf1_chain (settings.chunk_size.toNat - 1) l.length l
        le_rfl hch g hg
      unfold frameCount chunkFrames
      rw [parse_serializeFrames g hne hgc]
      simp

/-- Witness for C4 at the spec's example: frames "1-5" with chunk size 2
give chunks "1-2", "3-4", "5" with frame counts 2, 2, 1. -/
theorem C4_chunk_partition_witness :
    (frameChunker ("1-5").toList 2 =
        .ok [("1-2").toList, ("3-4").toList, ("5").toList] ∧
      frameCount ("1-2").toList = 2 ∧ frameCount ("3-4").toList = 2 ∧
      frameCount ("5").toList = 1) ∧
    (List.Chain' (· < ·) [1, 2, 3, 4, 5] ∧
      ∃ chunks, frameChunker settingsA.frames settingsA.chunk_size = .ok chunks ∧
        (chunks.map chunkFrames).flatten = [1, 2, 3, 4, 5] ∧
        (∀ c ∈ chunks, chunkFrames c ≠ [] ∧
          (chunkFrames c).length ≤ settingsA.chunk_size.toNat) ∧
        (∀ c ∈ chunks.dropLast,
          (chunkFrames c).length = settingsA.chunk_size.toNat) ∧
        ∃ tasks, authorRenderTasks settingsA ("/proj/render").toList
            (("/proj/render/Anim03_######").toList) = .ok tasks ∧
          tasks.length = chunks.length ∧
          ∀ (i : Nat) (c : List Char) (t : RenderTask),
            chunks[i]? = some c → tasks[i]? = some t →
            ∃ cmd, t.commands = [cmd] ∧ cmd.count = (chunkFrames c).length) :=
  ⟨by decide,
   C4_chunk_partition settingsA [1, 2, 3, 4, 5] ("/proj/render").toList
     (("/proj/render/Anim03_######").toList) (by decide) (by decide)⟩

/-- C5: for every chunk the command argument list has the fixed order:
an optional scene pair present exactly when a scene name is configured,
then the optional overwrite instruction present exactly when
`force_overwrite` is set, then `--render-output`, `--render-format` and
`--render-frame`, the last carrying the chunk token with `-` rewritten
to `..`. -/
theorem C5_command_argument_order (settings : Settings)
    (renderDir renderOutput : List Char) (chunks : List (List Char))
    (tasks : List RenderTask)
    (hC : frameChunker settings.frames settings.chunk_size = .ok chunks)
    (hA : authorRenderTasks settings renderDir renderOutput = .ok tasks) :
    tasks.length = chunks.length ∧
    ∀ (i : Nat) (chunk : List Char) (t : RenderTask),
      chunks[i]? = some chunk → tasks[i]? = some t →
      ∃ cmd pre1 pre2, t.commands = [cmd] ∧
        cmd.args = pre1 ++ pre2 ++
          [("--render-output").toList, pathJoin renderDir (basenameOf renderOutput),
           ("--render-format").toList, settings.format,
           ("--render-frame").toList,
           chunk.flatMap (fun c => if c = '-' then ['.', '.'] else [c])] ∧
        (settings.scene ≠ [] → pre1 = [("--scene").toList, settings.scene]) ∧
        (settings.scene = [] → pre1 = []) ∧
        (settings.force_overwrite = true →
          pre2 = [("--python-expr").toList, overwriteExpr]) ∧
        (settings.force_overwrite = false → pre2 = []) := by
  unfold authorRenderTasks at hA
  rw [hC] at hA
  simp only [Except.ok.injEq] at hA
  subst hA
  refine ⟨by simp, ?_⟩
  intro i chunk t hic hit
  rw [List.getElem?_map, hic] at hit
  simp only [Option.map_some', Option.some.injEq] at hit
  subst hit
  refine ⟨_, baseArgs settings, overwriteArgs settings, rfl, rfl, ?_, ?_, ?_, ?_⟩
  · intro h; simp [baseArgs, h]
  · intro h; simp [baseArgs, h]
  · intro h; simp [overwriteArgs, h]
  · intro h; simp [overwriteArgs, h]

/-- Witness for C5 at the sample settings: scene configured, overwrite
forced, chunks of "1-5" by 2. -/
theorem C5_command_argument_order_witness :
    (BlenderPath.addedTasks jobA).length =
      [("1-2").toList, ("3-4").toList, ("5").toList].length ∧
    ∀ (i : Nat) (chunk : List Char) (t : RenderTask),
      [("1-2").toList, ("3-4").toList, ("5").toList][i]? = some chunk →
      (BlenderPath.addedTasks jobA)[i]? = some t →
      ∃ cmd pre1 pre2, t.commands = [cmd] ∧
        cmd.args = pre1 ++ pre2 ++
          [("--render-output").toList,
           pathJoin (dirname (renderOutputPath jobA))
             (basenameOf (renderOutputPath jobA)),
           ("--render-format").toList, settingsA.format,
           ("--render-frame").toList,
           chunk.flatMap (fun c => if c = '-' then ['.', '.'] else [c])] ∧
        (settingsA.scene ≠ [] → pre1 = [("--scene").toList, settingsA.scene]) ∧
        (settingsA.scene = [] → pre1 = []) ∧
        (settingsA.force_overwrite = true →
          pre2 = [("--python-expr").toList, overwriteExpr]) ∧
        (settingsA.force_overwrite = false → pre2 = []) :=
  C5_command_argument_order settingsA (dirname (renderOutputPath jobA))
    (renderOutputPath jobA) [("1-2").toList, ("3-4").toList, ("5").toList]
    (BlenderPath.addedTasks jobA) (by decide) (by decide)

/-- C6: a job whose format is one of the fixed video formats fails
compilation with the unsupported-format error before anything else, in
both variants, and no task is added. -/
theorem C6_video_formats_rejected (job : Job)
    (h : job.settings.format ∈ videoFormats) :
    BlenderPath.compileJob job = .error videoFormatsMsg ∧
    RootBased.compileJob job = .error videoFormatsMsg ∧
    BlenderPath.addedTasks job = [] ∧ RootBased.addedTasks job = [] := by
  have hb : videoFormats.contains job.settings.format = true :=
    List.elem_eq_true_of_mem h
  have h1 : BlenderPath.compileJob job = .error videoFormatsMsg := by
    unfold BlenderPath.compileJob
    rw [if_pos hb]
  have h2 : RootBased.compileJob job = .error videoFormatsMsg := by
    unfold RootBased.compileJob
    rw [if_pos hb]
  refine ⟨h1, h2, ?_, ?_⟩
  · unfold BlenderPath.addedTasks
    rw [h1]
  · unfold RootBased.addedTasks
    rw [h2]

/-- Witness for C6 at the FFMPEG sample job. -/
theorem C6_video_formats_rejected_witness :
    BlenderPath.compileJob jobC = .error videoFormatsMsg ∧
    RootBased.compileJob jobC = .error videoFormatsMsg ∧
    BlenderPath.addedTasks jobC = [] ∧ RootBased.addedTasks jobC = [] :=
  C6_video_formats_rejected jobC (by decide)

/-- C7: in the root-relative variant a blank output root fails
compilation with the missing-root error, no task added; the check runs
after the format check (a video format with a blank root still reports
the format error), and before any path or task work (the failure
happens for arbitrary frames, chunk size and template). -/
theorem C7_blank_root_rejected (job : Job)
    (h : isBlank job.settings.render_output_root = true) :
    RootBased.compileJob job =
      .error (if videoFormats.contains job.settings.format then videoFormatsMsg
        else rootMissingMsg) ∧
    RootBased.addedTasks job = [] := by
  have h1 : RootBased.compileJob job =
      .error (if videoFormats.contains job.settings.format then videoFormatsMsg
        else rootMissingMsg) := by
    unfold RootBased.compileJob
    by_cases hv : videoFormats.contains job.settings.format = true
    · rw [if_pos hv, if_pos hv]
    · rw [if_neg hv, if_pos h, if_neg hv]
  refine ⟨h1, ?_⟩
  unfold RootBased.addedTasks
  rw [h1]

/-- Witness for C7 at the blank-root sample job (PNG format, so the
reported error is the missing-root one). -/
theorem C7_blank_root_rejected_witness :
    (RootBased.compileJob jobD =
      .error (if videoFormats.contains jobD.settings.format then videoFormatsMsg
        else rootMissingMsg) ∧
     RootBased.addedTasks jobD = []) ∧
    RootBased.compileJob jobD = .error rootMissingMsg :=
  ⟨C7_blank_root_rejected jobD (by decide), by decide⟩

/-- C8: a non-positive chunk size makes compilation fail with the
invalid-chunk-size error in both variants (given the earlier validation
steps pass), and no task is added. -/
theorem C8_invalid_chunk_size (job : Job)
    (h0 : job.settings.chunk_size ≤ 0)
    (hf : videoFormats.contains job.settings.format = false)
    (hr : isBlank job.settings.render_output_root = false) :
    BlenderPath.compileJob job = .error ("invalid chunk size").toList ∧
    RootBased.compileJob job = .error ("invalid chunk size").toList ∧
    BlenderPath.addedTasks job = [] ∧ RootBased.addedTasks job = [] := by
  have hFC : frameChunker job.settings.frames job.settings.chunk_size =
      .error ("invalid chunk size").toList := by
    unfold frameChunker
    rw [if_pos h0]
  have hAu : authorRenderTasks job.settings (dirname (renderOutputPath job))
      (renderOutputPath job) = .error ("invalid chunk size").toList := by
    unfold authorRenderTasks
    rw [hFC]
  have hf' : ¬videoFormats.contains job.settings.format = true := by
    intro hc
    rw [hf] at hc
    exact Bool.noConfusion hc
  have hr' : ¬isBlank job.settings.render_output_root = true := by
    intro hc
    rw [hr] at hc
    exact Bool.noConfusion hc
  have h1 : BlenderPath.compileJob job = .error ("invalid chunk size").toList := by
    unfold BlenderPath.compileJob
    rw [if_neg hf', hAu]
  have h2 : RootBased.compileJob job = .error ("invalid chunk size").toList := by
    unfold RootBased.compileJob
    rw [if_neg hf', if_neg hr', hAu]
  refine ⟨h1, h2, ?_, ?_⟩
  · unfold BlenderPath.addedTasks
    rw [h1]
  · unfold RootBased.addedTasks
    rw [h2]

/-- Witness for C8 at the zero-chunk-size sample job. -/
theorem C8_invalid_chunk_size_witness :
    BlenderPath.compileJob jobE = .error ("invalid chunk size").toList ∧
    RootBased.compileJob jobE = .error ("invalid chunk size").toList ∧
    BlenderPath.addedTasks jobE = [] ∧ RootBased.addedTasks jobE = [] :=
  C8_invalid_chunk_size jobE (by decide) (by decide) (by decide)

theorem frameChunker_ok_partition (frames : List Char) (n : Int)
    (chunks : List (List Char)) (h : frameChunker frames n = .ok chunks) :
    ∃ l, parseFrameSet frames = some l ∧ List.Chain' (· < ·) l ∧
      (chunks.map chunkFrames).flatten = l := by
  unfold frameChunker at h
  split at h
  · exact absurd h (by simp)
  rcases hp : parseFrameSet frames with _ | l
  all_goals rw [hp] at h
  · exact absurd h (by simp)
  simp only [Except.ok.injEq] at h
  subst h
  have hch := parseFrameSet_chain frames l hp
  refine ⟨l, rfl, hch, ?_⟩
  rw [List.map_map]
  have hgrp : ∀ g ∈ chunksOf1 (n.toNat - 1) l,
      chunkFrames (serializeFrames g) = g := by
    intro g hg
    obtain ⟨hne, _⟩ := mem_chunksOf1 (n.toNat - 1) l.length l le_rfl g hg
    have hgc := chunksOf1_chain (n.toNat - 1) l.length l le_rfl hch g hg
    unfold chunkFrames
    rw [parse_serializeFrames g hne hgc]
    rfl
  have hmc : List.map (chunkFrames ∘ serializeFrames) (chunksOf1 (n.toNat - 1) l) =
      List.map id (chunksOf1 (n.toNat - 1) l) :=
    List.map_congr_left (fun g hg => hgrp g hg)
  rw [hmc, List.map_id]
  exact chunksOf1_flatten (n.toNat - 1) l.length l le_rfl

/-- The atomicity property of one compile function: it either throws and
adds nothing, or it adds exactly the complete authored task list, one
command per task, in ascending chunk order. -/
def AtomicCompile
    (compile : Job → Except (List Char) (List Char × List RenderTask))
    (added : Job → List RenderTask) : Prop :=
  ∀ job : Job,
    (∃ e, compile job = .error e ∧ added job = []) ∨
    (∃ out tasks chunks, compile job = .ok (out, tasks) ∧
      added job = tasks ∧
      frameChunker job.settings.frames job.settings.chunk_size = .ok chunks ∧
      tasks = chunks.map (authorOneTask job.settings
        (dirname (renderOutputPath job)) (renderOutputPath job)) ∧
      (∀ t ∈ tasks, t.commands.length = 1) ∧
      List.Chain' (· < ·) ((chunks.map chunkFrames).flatten))

/-- C9: compilation is atomic in both variants — either it throws and
zero tasks are added, or the complete task list is produced and added,
each task carrying exactly one command, the chunks in ascending frame
order; no failure adds a nonempty strict prefix. -/
theorem C9_compilation_atomic :
    AtomicCompile BlenderPath.compileJob BlenderPath.addedTasks ∧
    AtomicCompile RootBased.compileJob RootBased.addedTasks := by
  constructor
  · intro job
    rcases hc : BlenderPath.compileJob job with e | r
    · exact Or.inl ⟨e, rfl, by unfold BlenderPath.addedTasks; rw [hc]⟩
    · rcases r with ⟨out, tasks⟩
      obtain ⟨h1, chunks, hC, h2⟩ := blenderCompileJob_ok job out tasks hc
      obtain ⟨l, _, hch, hflat⟩ :=
        frameChunker_ok_partition job.settings.frames job.settings.chunk_size
          chunks hC
      refine Or.inr ⟨out, tasks, chunks, rfl,
        by unfold BlenderPath.addedTasks; rw [hc], hC, h2, ?_, by rw [hflat]; exact hch⟩
      intro t ht
      rw [h2] at ht
      obtain ⟨chunk, _, rfl⟩ := List.mem_map.1 ht
      rfl
  · intro job
    rcases hc : RootBased.compileJob job with e | r
    · exact Or.inl ⟨e, rfl, by unfold RootBased.addedTasks; rw [hc]⟩
    · rcases r with ⟨out, tasks⟩
      obtain ⟨h1, chunks, hC, h2⟩ := rootCompileJob_ok job out tasks hc
      obtain ⟨l, _, hch, hflat⟩ :=
        frameChunker_ok_partition job.settings.frames job.settings.chunk_size
          chunks hC
      refine Or.inr ⟨out, tasks, chunks, rfl,
        by unfold RootBased.addedTasks; rw [hc], hC, h2, ?_, by rw [hflat]; exact hch⟩
      intro t ht
      rw [h2] at ht
      obtain ⟨chunk, _, rfl⟩ := List.mem_map.1 ht
      rfl

/-- C10: compilation is deterministic — two jobs with equal settings and
equal creation times compile identically in both variants, whatever
their other fields (name, priority) are; the creation time is the only
non-settings input the computation reads. -/
theorem C10_compilation_deterministic (j1 j2 : Job)
    (hs : j1.settings = j2.settings) (hc : j1.created = j2.created) :
    BlenderPath.compileJob j1 = BlenderPath.compileJob j2 ∧
    RootBased.compileJob j1 = RootBased.compileJob j2 := by
  cases j1 with
  | mk s1 c1 n1 p1 =>
    cases j2 with
    | mk s2 c2 n2 p2 =>
      simp only [] at hs hc
      subst hs hc
      exact ⟨rfl, rfl⟩

/-- Witness for C10: `jobA` and `jobF` differ in name and priority but
share settings and creation time, so both variants compile them to the
same result. -/
theorem C10_compilation_deterministic_witness :
    BlenderPath.compileJob jobA = BlenderPath.compileJob jobF ∧
    RootBased.compileJob jobA = RootBased.compileJob jobF :=
  C10_compilation_deterministic jobA jobF rfl rfl
